import Mathlib

/-!
Verification of the version-specifier algebra of `src/yunohost/utils/packages.py`
(classes `Specifier` and `SpecifierSet`).

The Python code delegates all version-string comparison to an external function
`version_compare` (not part of this repository's source; the spec declares it an
external total-order collaborator).  Every operation below is therefore
parameterised by a comparator `vc : String → String → Int`; a concrete model
comparator `version_compare` is defined near the end for evaluating examples.

Python's `frozenset` of specifiers is embedded as the strictly-sorted
duplicate-free list of its members, ordered by each member's canonical string
(the same order `SpecifierSet.__str__` uses for display).  Structural equality
of these canonical lists coincides with `frozenset` equality.
-/

/-! ### Character-level utilities (Python `re` / `str` primitives) -/

/-- Python's `\s` class: space, tab, newline, carriage return, vertical tab, form feed. -/
def isSpaceChar (c : Char) : Bool :=
  c = ' ' || c = '\t' || c = '\n' || c = '\r' || c = '\x0b' || c = '\x0c'

/-- A character allowed in the `version` group of `Specifier._regex`:
anything except comma, semicolon, whitespace and a closing parenthesis
(`[^,;\s)]`). -/
def isTokenChar (c : Char) : Bool :=
  !(c = ',' || c = ';' || c = ')' || isSpaceChar c)

/-- Python `"x,y".split(",")` on a character list: `[]` yields `[[]]`,
exactly like `"".split(",") == [""]`. -/
def splitComma : List Char → List (List Char)
  | [] => [[]]
  | c :: rest =>
    if c = ',' then [] :: splitComma rest
    else
      match splitComma rest with
      | [] => [[c]]
      | t :: ts => (c :: t) :: ts

/-- Python `str.strip()`: drop whitespace from both ends. -/
def trimChars (l : List Char) : List Char :=
  ((l.dropWhile isSpaceChar).reverse.dropWhile isSpaceChar).reverse

/-- Python `",".join(parts)` on character lists. -/
def joinComma : List (List Char) → List Char
  | [] => []
  | [t] => t
  | t :: t2 :: ts => t ++ ',' :: joinComma (t2 :: ts)

/-- Strict lexicographic order on character lists by code point, the order
Python uses to compare `str` values (a proper prefix sorts first). -/
def charListLt : List Char → List Char → Bool
  | [], [] => false
  | [], _ :: _ => true
  | _ :: _, [] => false
  | a :: as, b :: bs =>
    if a.toNat < b.toNat then true
    else if b.toNat < a.toNat then false
    else charListLt as bs

/-! ### The relation symbol (`Specifier._relations`) -/

/-- The five Debian relation symbols accepted by `Specifier`:
`<<`, `<=`, `=`, `>=`, `>>`. -/
inductive VRel
  | lt
  | le
  | eq
  | ge
  | gt
deriving DecidableEq

/-- The characters of the relation symbol as written in a specifier string. -/
def VRel.chars : VRel → List Char
  | .lt => ['<', '<']
  | .le => ['<', '=']
  | .eq => ['=']
  | .ge => ['>', '=']
  | .gt => ['>', '>']

/-- Python `rel[0]`: the direction character of the relation symbol. -/
def VRel.firstChar : VRel → Char
  | .lt => '<'
  | .le => '<'
  | .eq => '='
  | .ge => '>'
  | .gt => '>'

/-- Python `rel[1] == '='` on the two-character relation symbols: true for the
inclusive flavors `<=` and `>=`, false for the strict `<<` and `>>`.  The
source never evaluates `rel[1]` when the relation is `=` (that case is handled
earlier in `intersection`), so the value chosen for `=` here is immaterial. -/
def VRel.inclusive : VRel → Bool
  | .le => true
  | .ge => true
  | _ => false

/-! ### Specifier -/

/-- Python `Specifier._spec`: the parsed `(relation, version)` pair.  The version is
kept verbatim as captured from the input. -/
structure Specifier where
  relation : VRel
  version : String
deriving DecidableEq

/-- Python `Specifier.__str__`: `"{relation}{version}"`, as a character list. -/
def Specifier.strChars (s : Specifier) : List Char :=
  s.relation.chars ++ s.version.data

/-- Python `Specifier.__str__` as a string. -/
def Specifier.str (s : Specifier) : String :=
  String.mk s.strChars

/-- Python `Specifier.contains`: dispatches on the relation and interprets the sign of
`version_compare(item, self.version)` (`_compare_lower_than` etc.). -/
def Specifier.contains (vc : String → String → Int) (s : Specifier)
    (item : String) : Bool :=
  match s.relation with
  | .lt => decide (vc item s.version < 0)
  | .le => decide (vc item s.version ≤ 0)
  | .eq => decide (vc item s.version = 0)
  | .ge => decide (vc item s.version ≥ 0)
  | .gt => decide (vc item s.version > 0)

/-- The relation token of `Specifier._regex`: the alternation `(<<|<=|=|>=|>>)`
anchored at the current position; returns the parsed relation and the rest of
the input, or `none` when no alternative matches. -/
def parseRelChars : List Char → Option (VRel × List Char)
  | [] => none
  | c :: rest =>
    if c = '<' then
      match rest with
      | [] => none
      | c2 :: rest2 =>
        if c2 = '<' then some (VRel.lt, rest2)
        else if c2 = '=' then some (VRel.le, rest2)
        else none
    else if c = '=' then some (VRel.eq, rest)
    else if c = '>' then
      match rest with
      | [] => none
      | c2 :: rest2 =>
        if c2 = '=' then some (VRel.ge, rest2)
        else if c2 = '>' then some (VRel.gt, rest2)
        else none
    else none

/-- Python `Specifier.__init__` on a string: the regex
`^\s*(<<|<=|=|>=|>>)\s*([^,;\s)]*)\s*$` (note the `*` on the version group: an
empty version is accepted).  `none` models raising `InvalidSpecifier`.
The `.strip()` calls the source applies to the captured groups are no-ops,
since neither group can contain whitespace. -/
def parseChars (l : List Char) : Option Specifier :=
  match parseRelChars (l.dropWhile isSpaceChar) with
  | none => none
  | some (r, l2) =>
    let l3 := l2.dropWhile isSpaceChar
    let ver := l3.takeWhile isTokenChar
    let l4 := (l3.dropWhile isTokenChar).dropWhile isSpaceChar
    if l4 = [] then some ⟨r, String.mk ver⟩ else none

/-- Python `Specifier(spec)` for a string argument; `none` models `InvalidSpecifier`. -/
def Specifier.parse (s : String) : Option Specifier :=
  parseChars s.data

/-- The order in which `SpecifierSet.__str__` lists members: by canonical
string (`sorted(str(s) for s in ...)`). -/
def Specifier.specLt (a b : Specifier) : Bool :=
  charListLt a.strChars b.strChars

/-- Ordered duplicate-free insertion into a canonical member list: the
embedding of adding one element to a Python `set` of specifiers. -/
def sinsert (x : Specifier) : List Specifier → List Specifier
  | [] => [x]
  | y :: ys =>
    if Specifier.specLt x y then x :: y :: ys
    else if Specifier.specLt y x then y :: sinsert x ys
    else y :: ys

/-- Set union of member lists (Python `set.update` / `|`), keeping the
canonical order. -/
def unionLists (l r : List Specifier) : List Specifier :=
  l.foldr sinsert r

/-! ### SpecifierSet -/

/-- Python `SpecifierSet._specs`: the frozenset of members, embedded as its
canonically sorted duplicate-free list. -/
structure SpecifierSet where
  specs : List Specifier
deriving DecidableEq

/-- Python `SpecifierSet(list_of_specifiers)`: collect the given members into a set
(duplicates collapse). -/
def SpecifierSet.ofList (l : List Specifier) : SpecifierSet :=
  ⟨unionLists l []⟩

/-- Python `SpecifierSet.__init__` on a string: split on `,`, strip each piece, drop
empty pieces, parse each remaining piece as a `Specifier`; `none` models the
propagated `InvalidSpecifier`. -/
def parseAll : List (List Char) → Option (List Specifier)
  | [] => some []
  | t :: ts =>
    match parseChars t with
    | none => none
    | some sp =>
      match parseAll ts with
      | none => none
      | some sps => some (sp :: sps)

/-- Python `SpecifierSet(spec_string)`; `none` models `InvalidSpecifier`. -/
def SpecifierSet.parse (s : String) : Option SpecifierSet :=
  match parseAll (((splitComma s.data).map trimChars).filter
      (fun t => !t.isEmpty)) with
  | none => none
  | some specs => some (SpecifierSet.ofList specs)

/-- Python `SpecifierSet.__str__`: comma-join of the members' canonical strings in
sorted order (the canonical member list is already in that order). -/
def SpecifierSet.str (S : SpecifierSet) : String :=
  String.mk (joinComma (S.specs.map Specifier.strChars))

/-- Python `SpecifierSet.contains`: `all(s.contains(item) for s in self._specs)`. -/
def SpecifierSet.contains (vc : String → String → Int) (S : SpecifierSet)
    (item : String) : Bool :=
  S.specs.all (fun sp => sp.contains vc item)

/-- Python `SpecifierSet.union`: plain structural union of the member sets, no
algebraic reduction. -/
def SpecifierSet.union (a b : SpecifierSet) : SpecifierSet :=
  ⟨unionLists a.specs b.specs⟩

/-- Python `Specifier.intersection` (the central algorithm, lines 156-197 of the
source): case 1 identical operands; cases 2-3 an `=` operand absorbs or is
infeasible; case 4 equal version strings tie-break on strictness
(`rel1[1] == '='`); case 5 overlapping ranges keep the more restrictive bound
of a shared direction or both bounds of a two-sided range; case 6 disjoint
ranges give the empty set.  `result = None` and `result = []` both construct
the empty `SpecifierSet`. -/
def Specifier.intersection (vc : String → String → Int)
    (self other : Specifier) : SpecifierSet :=
  if other = self then SpecifierSet.ofList [other]
  else if self.relation = VRel.eq then
    if other.contains vc self.version then SpecifierSet.ofList [self]
    else SpecifierSet.ofList []
  else if other.relation = VRel.eq then
    if self.contains vc other.version then SpecifierSet.ofList [other]
    else SpecifierSet.ofList []
  else if self.version = other.version then
    SpecifierSet.ofList [if self.relation.inclusive then other else self]
  else if self.contains vc other.version || other.contains vc self.version then
    if self.relation.firstChar = other.relation.firstChar then
      if self.relation.firstChar = '>' then
        SpecifierSet.ofList [if vc self.version other.version > 0 then self else other]
      else
        SpecifierSet.ofList [if vc self.version other.version > 0 then other else self]
    else SpecifierSet.ofList [self, other]
  else SpecifierSet.ofList []

/-- Python `Specifier.union`: `SpecifierSet([self, other])`. -/
def Specifier.union (self other : Specifier) : SpecifierSet :=
  SpecifierSet.ofList [self, other]

/-- The inner loop of `SpecifierSet.intersection` for one pooled element `e`:
intersect `e` with every member of the current accumulator, collecting the
union of the results; an empty pairwise intersection clears everything and
breaks (`parsed.clear(); break`), modelled by `none`. -/
def mergeInner (vc : String → String → Int) (e : Specifier) :
    List Specifier → Option (List Specifier)
  | [] => some []
  | m :: rest =>
    let inter := Specifier.intersection vc m e
    if inter.specs = [] then none
    else
      match mergeInner vc e rest with
      | none => none
      | some acc => some (unionLists inter.specs acc)

/-- The outer loop of `SpecifierSet.intersection`: fold the remaining pooled
elements into the accumulator; an empty accumulator aborts the whole
reduction. -/
def reduceList (vc : String → String → Int) :
    List Specifier → List Specifier → List Specifier
  | [], current => current
  | e :: rest, current =>
    match mergeInner vc e current with
    | none => []
    | some next => if next = [] then [] else reduceList vc rest next

/-- Python `SpecifierSet.intersection` run on an explicit iteration order of the
pooled members: the first element is the popped seed, the rest are visited in
list order.  (Python iterates a `set` in an arbitrary order; the order is made
explicit here.) -/
def intersectPool (vc : String → String → Int) :
    List Specifier → SpecifierSet
  | [] => SpecifierSet.ofList []
  | seed :: rest => ⟨reduceList vc rest [seed]⟩

/-- Python `SpecifierSet.intersection`, iterating the pool in canonical order. -/
def SpecifierSet.intersection (vc : String → String → Int)
    (a b : SpecifierSet) : SpecifierSet :=
  intersectPool vc (unionLists a.specs b.specs)

/-- Python `Specifier.__eq__` against a raw string: parse the string, returning
`False` on parse failure (the `InvalidSpecifier` is caught and Python's
`NotImplemented` fallback makes the comparison `False`). -/
def Specifier.eqStr (sp : Specifier) (t : String) : Bool :=
  match Specifier.parse t with
  | none => false
  | some o => decide (sp = o)

/-- Python `SpecifierSet.__eq__` against a raw string: the string is parsed with no
exception handling, so a malformed specifier string raises `InvalidSpecifier`
(modelled by `none`) instead of yielding a boolean. -/
def SpecifierSet.eqStr (S : SpecifierSet) (t : String) : Option Bool :=
  match SpecifierSet.parse t with
  | none => none
  | some T => some (decide (S = T))

/-! ### A concrete model of the external comparator -/

/-- Split a character list on `.`. -/
def splitDot : List Char → List (List Char)
  | [] => [[]]
  | c :: rest =>
    if c = '.' then [] :: splitDot rest
    else
      match splitDot rest with
      | [] => [[c]]
      | t :: ts => (c :: t) :: ts

/-- Read a run of decimal digits as a number. -/
def chunkNum (l : List Char) : Nat :=
  l.foldl (fun acc c => acc * 10 + (c.toNat - 48)) 0

/-- Numeric key of a dotted version string. -/
def verKey (s : String) : List Nat :=
  (splitDot s.data).map chunkNum

/-- Strict lexicographic order on number lists (a proper prefix sorts first). -/
def natListLt : List Nat → List Nat → Bool
  | [], [] => false
  | [], _ :: _ => true
  | _ :: _, [] => false
  | a :: as, b :: bs =>
    if a < b then true
    else if b < a then false
    else natListLt as bs

/-- Modelled from the spec: the external collaborator
`VersionComparator.compare` (`version_compare` in the source) is not part of
this repository; the spec requires only a pure total order over version
strings consistent with Debian policy ordering.  This model compares dotted
numeric components lexicographically, which agrees with Debian ordering on all
version literals used in the spec's examples (`1.9`, `2.0`, `2.2`, `2.2.1`,
`2.2.5`, `2.3`, `2.4`, `3.0`). -/
def version_compare (a b : String) : Int :=
  if natListLt (verKey a) (verKey b) then -1
  else if natListLt (verKey b) (verKey a) then 1
  else 0

/-- The Python-reachability invariant on member versions: every character was
captured by the `[^,;\s)]*` group of the parsing regex. -/
abbrev validToken (v : String) : Prop :=
  ∀ c ∈ v.data, isTokenChar c = true

/-- The representation invariant of the embedding: the member list is strictly
sorted by canonical string, the canonical form of a Python `frozenset` of
specifiers.  Every `SpecifierSet` the Python code can build has this form. -/
def canonicalSpecsB : List Specifier → Bool
  | [] => true
  | [_] => true
  | a :: b :: rest => Specifier.specLt a b && canonicalSpecsB (b :: rest)

abbrev canonicalSpecs (l : List Specifier) : Prop :=
  canonicalSpecsB l = true

/-! ### Basic facts about the canonical order and the model comparator -/

theorem charEq {a b : Char} (h : a.toNat = b.toNat) : a = b :=
  Char.ext (UInt32.ext_iff.mpr h)

theorem charListLt_asymm :
    ∀ a b : List Char, charListLt a b = true → charListLt b a = false := by
  intro a
  induction a with
  | nil =>
    intro b h
    cases b with
    | nil => rfl
    | cons c cs => rfl
  | cons x xs ih =>
    intro b h
    cases b with
    | nil => simp [charListLt] at h
    | cons y ys =>
      unfold charListLt at h ⊢
      rcases Nat.lt_trichotomy x.toNat y.toNat with hxy | hxy | hxy
      · rw [if_neg (by omega), if_pos hxy]
      · rw [if_neg (by omega), if_neg (by omega)] at h ⊢
        exact ih ys h
      · rw [if_neg (by omega), if_pos hxy] at h
        exact absurd h (by simp)

theorem charListLt_conn :
    ∀ a b : List Char, charListLt a b = false → charListLt b a = false → a = b := by
  intro a
  induction a with
  | nil =>
    intro b h _
    cases b with
    | nil => rfl
    | cons c cs => simp [charListLt] at h
  | cons x xs ih =>
    intro b h h'
    cases b with
    | nil => simp [charListLt] at h'
    | cons y ys =>
      unfold charListLt at h h'
      rcases Nat.lt_trichotomy x.toNat y.toNat with hxy | hxy | hxy
      · rw [if_pos hxy] at h
        simp at h
      · rw [if_neg (by omega), if_neg (by omega)] at h h'
        rw [charEq hxy, ih ys h h']
      · rw [if_pos hxy] at h'
        simp at h'

theorem Specifier.strChars_inj {a b : Specifier}
    (h : a.strChars = b.strChars) : a = b := by
  obtain ⟨ra, va⟩ := a
  obtain ⟨rb, vb⟩ := b
  obtain ⟨da⟩ := va
  obtain ⟨db⟩ := vb
  simp only [Specifier.strChars] at h
  cases ra <;> cases rb <;> simp_all [VRel.chars]

theorem Specifier.specLt_asymm (a b : Specifier)
    (h : Specifier.specLt a b = true) : Specifier.specLt b a = false :=
  charListLt_asymm _ _ h

theorem Specifier.specLt_conn (a b : Specifier)
    (h : Specifier.specLt a b = false) (h' : Specifier.specLt b a = false) :
    a = b :=
  Specifier.strChars_inj (charListLt_conn _ _ h h')

theorem ofList_pair_comm (a b : Specifier) :
    SpecifierSet.ofList [a, b] = SpecifierSet.ofList [b, a] := by
  show (⟨sinsert a [b]⟩ : SpecifierSet) = ⟨sinsert b [a]⟩
  by_cases hab : Specifier.specLt a b = true
  · have hba := Specifier.specLt_asymm a b hab
    simp [sinsert, hab, hba]
  · have hab' : Specifier.specLt a b = false := by
      cases h : Specifier.specLt a b
      · rfl
      · exact absurd h hab
    by_cases hba : Specifier.specLt b a = true
    · simp [sinsert, hab', hba]
    · have hba' : Specifier.specLt b a = false := by
        cases h : Specifier.specLt b a
        · rfl
        · exact absurd h hba
      rw [Specifier.specLt_conn a b hab' hba']

theorem unionLists_nil_of_canonical :
    ∀ l : List Specifier, canonicalSpecs l → unionLists l [] = l := by
  intro l
  induction l with
  | nil => intro _; rfl
  | cons x l ih =>
    intro h
    have hstep : unionLists (x :: l) [] = sinsert x (unionLists l []) := rfl
    cases l with
    | nil => rfl
    | cons y ys =>
      simp only [canonicalSpecs, canonicalSpecsB, Bool.and_eq_true] at h
      have hxy : Specifier.specLt x y = true := h.1
      have hcan : canonicalSpecs (y :: ys) := h.2
      rw [hstep, ih hcan]
      simp [sinsert, hxy]

theorem SpecifierSet.ofList_of_canonical (l : List Specifier)
    (h : canonicalSpecs l) : SpecifierSet.ofList l = ⟨l⟩ := by
  unfold SpecifierSet.ofList
  rw [unionLists_nil_of_canonical l h]

theorem natListLt_asymm :
    ∀ a b : List Nat, natListLt a b = true → natListLt b a = false := by
  intro a
  induction a with
  | nil =>
    intro b h
    cases b with
    | nil => rfl
    | cons c cs => rfl
  | cons x xs ih =>
    intro b h
    cases b with
    | nil => simp [natListLt] at h
    | cons y ys =>
      unfold natListLt at h ⊢
      rcases Nat.lt_trichotomy x y with hxy | hxy | hxy
      · rw [if_neg (by omega), if_pos hxy]
      · rw [if_neg (by omega), if_neg (by omega)] at h ⊢
        exact ih ys h
      · rw [if_neg (by omega), if_pos hxy] at h
        exact absurd h (by simp)

theorem version_compare_flip (a b : String) :
    version_compare a b = -(version_compare b a) := by
  unfold version_compare
  by_cases h1 : natListLt (verKey a) (verKey b) = true
  · have h2 := natListLt_asymm _ _ h1
    simp [h1, h2]
  · by_cases h2 : natListLt (verKey b) (verKey a) = true
    · simp [h1, h2]
    · simp [h1, h2]

theorem VRel.firstChar_of_ne_eq (r : VRel) (h : r ≠ VRel.eq) :
    r.firstChar = '<' ∨ r.firstChar = '>' := by
  cases r
  · exact Or.inl rfl
  · exact Or.inl rfl
  · exact absurd rfl h
  · exact Or.inr rfl
  · exact Or.inr rfl

theorem Specifier.contains_of_rel_eq (vc : String → String → Int)
    (s : Specifier) (item : String) (h : s.relation = VRel.eq) :
    s.contains vc item = decide (vc item s.version = 0) := by
  obtain ⟨r, v⟩ := s
  have hr : r = VRel.eq := h
  subst hr
  rfl

/-! ### Round-trip lemmas for parsing the canonical string form -/

theorem tokenChar_not_space {c : Char} (h : isTokenChar c = true) :
    isSpaceChar c = false := by
  unfold isTokenChar at h
  cases hs : isSpaceChar c
  · rfl
  · rw [hs] at h
    simp at h

theorem tokenChar_ne_comma {c : Char} (h : isTokenChar c = true) : ¬ c = ',' := by
  intro hc
  subst hc
  exact absurd h (by decide)

theorem dropWhile_cons_false {α : Type} (p : α → Bool) (c : α) (l : List α)
    (h : p c = false) : (c :: l).dropWhile p = c :: l := by
  simp [List.dropWhile_cons, h]

theorem dropWhile_eq_self_of_none {α : Type} (p : α → Bool) :
    ∀ l : List α, (∀ c ∈ l, p c = false) → l.dropWhile p = l := by
  intro l h
  cases l with
  | nil => rfl
  | cons c cs => exact dropWhile_cons_false p c cs (h c (by simp))

theorem takeWhile_eq_self_of_all {α : Type} (p : α → Bool) :
    ∀ l : List α, (∀ c ∈ l, p c = true) → l.takeWhile p = l := by
  intro l
  induction l with
  | nil => intro _; rfl
  | cons c cs ih =>
    intro h
    rw [List.takeWhile_cons, if_pos (h c (by simp))]
    rw [ih (fun x hx => h x (by simp [hx]))]

theorem dropWhile_eq_nil_of_all {α : Type} (p : α → Bool) :
    ∀ l : List α, (∀ c ∈ l, p c = true) → l.dropWhile p = [] := by
  intro l
  induction l with
  | nil => intro _; rfl
  | cons c cs ih =>
    intro h
    rw [List.dropWhile_cons, if_pos (h c (by simp))]
    exact ih (fun x hx => h x (by simp [hx]))

theorem trimChars_eq_self (l : List Char)
    (h : ∀ c ∈ l, isSpaceChar c = false) : trimChars l = l := by
  unfold trimChars
  rw [dropWhile_eq_self_of_none _ l h]
  rw [dropWhile_eq_self_of_none _ l.reverse
    (fun c hc => h c (List.mem_reverse.mp hc))]
  exact List.reverse_reverse l

theorem splitComma_of_no_comma :
    ∀ l : List Char, (∀ c ∈ l, ¬ c = ',') → splitComma l = [l] := by
  intro l
  induction l with
  | nil => intro _; rfl
  | cons c cs ih =>
    intro h
    have hc : ¬ c = ',' := h c (by simp)
    have ih' := ih (fun x hx => h x (by simp [hx]))
    simp [splitComma, hc, ih']

theorem splitComma_append :
    ∀ t r : List Char, (∀ c ∈ t, ¬ c = ',') →
      splitComma (t ++ ',' :: r) = t :: splitComma r := by
  intro t
  induction t with
  | nil => intro r _; simp [splitComma]
  | cons c cs ih =>
    intro r h
    have hc : ¬ c = ',' := h c (by simp)
    have ih' := ih r (fun x hx => h x (by simp [hx]))
    simp [splitComma, hc, ih']

theorem splitComma_joinComma :
    ∀ parts : List (List Char), parts ≠ [] →
      (∀ t ∈ parts, ∀ c ∈ t, ¬ c = ',') →
      splitComma (joinComma parts) = parts := by
  intro parts
  induction parts with
  | nil => intro h _; exact absurd rfl h
  | cons t ts ih =>
    intro _ h
    cases ts with
    | nil => exact splitComma_of_no_comma t (h t (by simp))
    | cons t2 ts2 =>
      show splitComma (t ++ ',' :: joinComma (t2 :: ts2)) = t :: t2 :: ts2
      rw [splitComma_append t _ (h t (by simp))]
      rw [ih (by simp) (fun u hu => h u (by simp [hu]))]

theorem parseRelChars_lt (d : List Char) :
    parseRelChars ('<' :: '<' :: d) = some (VRel.lt, d) := by
  simp [parseRelChars]

theorem parseRelChars_le (d : List Char) :
    parseRelChars ('<' :: '=' :: d) = some (VRel.le, d) := by
  simp [parseRelChars]

theorem parseRelChars_eq (d : List Char) :
    parseRelChars ('=' :: d) = some (VRel.eq, d) := by
  simp [parseRelChars]

theorem parseRelChars_ge (d : List Char) :
    parseRelChars ('>' :: '=' :: d) = some (VRel.ge, d) := by
  simp [parseRelChars]

theorem parseRelChars_gt (d : List Char) :
    parseRelChars ('>' :: '>' :: d) = some (VRel.gt, d) := by
  simp [parseRelChars]

theorem parseChars_strChars (sp : Specifier) (h : validToken sp.version) :
    parseChars sp.strChars = some sp := by
  obtain ⟨r, v⟩ := sp
  obtain ⟨d⟩ := v
  have htok : ∀ c ∈ d, isTokenChar c = true := h
  have hnosp : ∀ c ∈ d, isSpaceChar c = false :=
    fun c hc => tokenChar_not_space (htok c hc)
  cases r with
  | lt =>
    show parseChars ('<' :: '<' :: d) = some ⟨VRel.lt, ⟨d⟩⟩
    unfold parseChars
    rw [dropWhile_cons_false isSpaceChar '<' ('<' :: d) (by decide),
      parseRelChars_lt]
    simp [dropWhile_eq_self_of_none _ d hnosp,
      takeWhile_eq_self_of_all _ d htok, dropWhile_eq_nil_of_all _ d htok]
  | le =>
    show parseChars ('<' :: '=' :: d) = some ⟨VRel.le, ⟨d⟩⟩
    unfold parseChars
    rw [dropWhile_cons_false isSpaceChar '<' ('=' :: d) (by decide),
      parseRelChars_le]
    simp [dropWhile_eq_self_of_none _ d hnosp,
      takeWhile_eq_self_of_all _ d htok, dropWhile_eq_nil_of_all _ d htok]
  | eq =>
    show parseChars ('=' :: d) = some ⟨VRel.eq, ⟨d⟩⟩
    unfold parseChars
    rw [dropWhile_cons_false isSpaceChar '=' d (by decide), parseRelChars_eq]
    simp [dropWhile_eq_self_of_none _ d hnosp,
      takeWhile_eq_self_of_all _ d htok, dropWhile_eq_nil_of_all _ d htok]
  | ge =>
    show parseChars ('>' :: '=' :: d) = some ⟨VRel.ge, ⟨d⟩⟩
    unfold parseChars
    rw [dropWhile_cons_false isSpaceChar '>' ('=' :: d) (by decide),
      parseRelChars_ge]
    simp [dropWhile_eq_self_of_none _ d hnosp,
      takeWhile_eq_self_of_all _ d htok, dropWhile_eq_nil_of_all _ d htok]
  | gt =>
    show parseChars ('>' :: '>' :: d) = some ⟨VRel.gt, ⟨d⟩⟩
    unfold parseChars
    rw [dropWhile_cons_false isSpaceChar '>' ('>' :: d) (by decide),
      parseRelChars_gt]
    simp [dropWhile_eq_self_of_none _ d hnosp,
      takeWhile_eq_self_of_all _ d htok, dropWhile_eq_nil_of_all _ d htok]

theorem relChars_clean (r : VRel) :
    ∀ c ∈ r.chars, ¬ c = ',' ∧ isSpaceChar c = false := by
  cases r with
  | lt =>
    intro c hc
    simp [VRel.chars] at hc
    subst hc
    exact ⟨by decide, by decide⟩
  | le =>
    intro c hc
    simp [VRel.chars] at hc
    rcases hc with hc | hc <;> subst hc <;> exact ⟨by decide, by decide⟩
  | eq =>
    intro c hc
    simp [VRel.chars] at hc
    subst hc
    exact ⟨by decide, by decide⟩
  | ge =>
    intro c hc
    simp [VRel.chars] at hc
    rcases hc with hc | hc <;> subst hc <;> exact ⟨by decide, by decide⟩
  | gt =>
    intro c hc
    simp [VRel.chars] at hc
    subst hc
    exact ⟨by decide, by decide⟩

theorem strChars_no_comma (sp : Specifier) (h : validToken sp.version) :
    ∀ c ∈ sp.strChars, ¬ c = ',' := by
  intro c hc
  rcases List.mem_append.mp hc with h1 | h2
  · exact (relChars_clean sp.relation c h1).1
  · exact tokenChar_ne_comma (h c h2)

theorem strChars_no_space (sp : Specifier) (h : validToken sp.version) :
    ∀ c ∈ sp.strChars, isSpaceChar c = false := by
  intro c hc
  rcases List.mem_append.mp hc with h1 | h2
  · exact (relChars_clean sp.relation c h1).2
  · exact tokenChar_not_space (h c h2)

theorem strChars_ne_nil (sp : Specifier) : sp.strChars ≠ [] := by
  cases hr : sp.relation <;> simp [Specifier.strChars, hr, VRel.chars]

theorem parseAll_strChars :
    ∀ l : List Specifier, (∀ sp ∈ l, validToken sp.version) →
      parseAll (l.map Specifier.strChars) = some l := by
  intro l
  induction l with
  | nil => intro _; rfl
  | cons sp l0 ih =>
    intro h
    have h1 := parseChars_strChars sp (h sp (by simp))
    have h2 := ih (fun x hx => h x (by simp [hx]))
    simp [parseAll, h1, h2]

theorem map_trimChars_eq_self (parts : List (List Char))
    (h : ∀ t ∈ parts, ∀ c ∈ t, isSpaceChar c = false) :
    parts.map trimChars = parts := by
  induction parts with
  | nil => rfl
  | cons t ts ih =>
    simp only [List.map_cons]
    rw [trimChars_eq_self t (h t (by simp)), ih (fun u hu => h u (by simp [hu]))]

theorem filter_nonempty_eq_self (parts : List (List Char))
    (h : ∀ t ∈ parts, t ≠ []) :
    parts.filter (fun t => !t.isEmpty) = parts := by
  apply List.filter_eq_self.mpr
  intro t ht
  simp [List.isEmpty_iff, h t ht]

/-! ### Conditional commutativity of the atomic intersection -/

theorem inter_comm_aux (vc : String → String → Int) (a b : Specifier)
    (hflip : ∀ x y, vc x y = -(vc y x))
    (hties : vc a.version b.version = 0 → a.version = b.version)
    (hexc : a.version = b.version → a ≠ b → a.relation ≠ VRel.eq →
      b.relation ≠ VRel.eq → a.relation.inclusive ≠ b.relation.inclusive) :
    Specifier.intersection vc a b = Specifier.intersection vc b a := by
  by_cases hab : b = a
  · subst hab
    rfl
  have hba : ¬ a = b := fun h => hab h.symm
  unfold Specifier.intersection
  simp only [if_neg hab, if_neg hba]
  by_cases h1 : a.relation = VRel.eq
  · by_cases h2 : b.relation = VRel.eq
    · simp only [if_pos h1, if_pos h2]
      have hne0 : ¬ (vc a.version b.version = 0) := by
        intro h0
        have hv := hties h0
        apply hab
        obtain ⟨ra, va⟩ := a
        obtain ⟨rb, vb⟩ := b
        have e1 : ra = VRel.eq := h1
        have e2 : rb = VRel.eq := h2
        have e3 : va = vb := hv
        subst e1
        subst e2
        subst e3
        rfl
      have hne0' : ¬ (vc b.version a.version = 0) := by
        rw [hflip b.version a.version]
        simpa using hne0
      have e1 : b.contains vc a.version = false := by
        rw [Specifier.contains_of_rel_eq vc b a.version h2]
        simp [hne0]
      have e2 : a.contains vc b.version = false := by
        rw [Specifier.contains_of_rel_eq vc a b.version h1]
        simp [hne0']
      rw [e1, e2]
      simp
    · simp only [if_pos h1, if_neg h2]
  · by_cases h2 : b.relation = VRel.eq
    · simp only [if_neg h1, if_pos h2]
    · simp only [if_neg h1, if_neg h2]
      by_cases hv : a.version = b.version
      · have hv' : b.version = a.version := hv.symm
        simp only [if_pos hv, if_pos hv']
        have hincl := hexc hv (fun h => hba h) h1 h2
        cases ha : a.relation.inclusive <;> cases hb : b.relation.inclusive
        · exact absurd (ha.trans hb.symm) hincl
        · rw [if_neg (by decide), if_pos rfl]
        · rw [if_pos rfl, if_neg (by decide)]
        · exact absurd (ha.trans hb.symm) hincl
      · have hv' : ¬ b.version = a.version := fun h => hv h.symm
        simp only [if_neg hv, if_neg hv']
        by_cases hov : (a.contains vc b.version || b.contains vc a.version) = true
        · have hov' : (b.contains vc a.version || a.contains vc b.version) = true := by
            rw [Bool.or_comm]
            exact hov
          simp only [if_pos hov, if_pos hov']
          have hne0 : ¬ (vc a.version b.version = 0) := fun h0 => hv (hties h0)
          by_cases hdir : a.relation.firstChar = b.relation.firstChar
          · have hdir' : b.relation.firstChar = a.relation.firstChar := hdir.symm
            simp only [if_pos hdir, if_pos hdir']
            by_cases hgt : a.relation.firstChar = '>'
            · have hgt' : b.relation.firstChar = '>' := by rw [← hdir]; exact hgt
              simp only [if_pos hgt, if_pos hgt']
              rcases Int.lt_trichotomy (vc a.version b.version) 0 with hlt | heq | hgt0
              · have r1 : ¬ (vc a.version b.version > 0) := by omega
                have r2 : vc b.version a.version > 0 := by
                  rw [hflip b.version a.version]
                  omega
                rw [if_neg r1, if_pos r2]
              · exact absurd heq hne0
              · have r2 : ¬ (vc b.version a.version > 0) := by
                  rw [hflip b.version a.version]
                  omega
                rw [if_pos hgt0, if_neg r2]
            · have hgt' : ¬ (b.relation.firstChar = '>') := by
                rw [← hdir]
                exact hgt
              simp only [if_neg hgt, if_neg hgt']
              rcases Int.lt_trichotomy (vc a.version b.version) 0 with hlt | heq | hgt0
              · have r1 : ¬ (vc a.version b.version > 0) := by omega
                have r2 : vc b.version a.version > 0 := by
                  rw [hflip b.version a.version]
                  omega
                rw [if_neg r1, if_pos r2]
              · exact absurd heq hne0
              · have r2 : ¬ (vc b.version a.version > 0) := by
                  rw [hflip b.version a.version]
                  omega
                rw [if_pos hgt0, if_neg r2]
          · have hdir' : ¬ (b.relation.firstChar = a.relation.firstChar) :=
              fun h => hdir h.symm
            simp only [if_neg hdir, if_neg hdir']
            exact ofList_pair_comm a b
        · have hov' : ¬ ((b.contains vc a.version || a.contains vc b.version) = true) := by
            rw [Bool.or_comm]
            exact hov
          simp only [if_neg hov, if_neg hov']

theorem ofList_pair_length (a b : Specifier) (h : a ≠ b) :
    (SpecifierSet.ofList [a, b]).specs.length = 2 := by
  show (sinsert a [b]).length = 2
  by_cases hab : Specifier.specLt a b = true
  · simp [sinsert, hab]
  · have hab' : Specifier.specLt a b = false := by
      cases hx : Specifier.specLt a b
      · rfl
      · exact absurd hx hab
    by_cases hba : Specifier.specLt b a = true
    · simp [sinsert, hab', hba]
    · have hba' : Specifier.specLt b a = false := by
        cases hx : Specifier.specLt b a
        · rfl
        · exact absurd hx hba
      exact absurd (Specifier.specLt_conn a b hab' hba') h

/-! ### The claims -/

/-- C1, counterexample: commutativity of `Specifier.intersection` fails as
stated.  For `a = <=2.2` and `b = >=2.2` (equal version strings, opposite
directions, both inclusive), `a.intersection(b)` is `{>=2.2}` while
`b.intersection(a)` is `{<=2.2}`, and the two disagree on the version
`3.0`. -/
theorem claim1_counterexample :
    (Specifier.intersection version_compare ⟨VRel.le, "2.2"⟩
        ⟨VRel.ge, "2.2"⟩).contains version_compare "3.0" = true ∧
    (Specifier.intersection version_compare ⟨VRel.ge, "2.2"⟩
        ⟨VRel.le, "2.2"⟩).contains version_compare "3.0" = false := by
  decide

/-- C1 (amended): `a.intersection(b)` and `b.intersection(a)` denote the same
set of satisfying versions provided (i) the comparator is sign-antisymmetric,
(ii) it does not tie the two distinct version strings of `a` and `b`, and
(iii) `a` and `b` are not distinct non-`=` specifiers sharing one version
string and one strictness flavor (the case-4 tie-break that the counterexample
exhibits). -/
theorem claim1_intersection_commutes (vc : String → String → Int)
    (a b : Specifier)
    (hflip : ∀ x y, vc x y = -(vc y x))
    (hties : vc a.version b.version = 0 → a.version = b.version)
    (hexc : a.version = b.version → a ≠ b → a.relation ≠ VRel.eq →
      b.relation ≠ VRel.eq → a.relation.inclusive ≠ b.relation.inclusive) :
    ∀ v, (Specifier.intersection vc a b).contains vc v =
      (Specifier.intersection vc b a).contains vc v := by
  intro v
  rw [inter_comm_aux vc a b hflip hties hexc]

theorem claim1_witness :
    (version_compare "2.2" "2.3" = 0 → ("2.2" : String) = "2.3") ∧
    (Specifier.intersection version_compare ⟨VRel.ge, "2.2"⟩
        ⟨VRel.lt, "2.3"⟩).contains version_compare "2.2.5" =
      (Specifier.intersection version_compare ⟨VRel.lt, "2.3"⟩
        ⟨VRel.ge, "2.2"⟩).contains version_compare "2.2.5" :=
  ⟨by decide,
    claim1_intersection_commutes version_compare ⟨VRel.ge, "2.2"⟩
      ⟨VRel.lt, "2.3"⟩ version_compare_flip (by decide) (by decide) "2.2.5"⟩

/-- C2, counterexample: `Specifier.parse ">= "` does not fail.  The version
group of the regex is `[^,;\s)]*` (zero or more characters), so `">= "` parses
to relation `>=` with an empty version instead of raising
`InvalidSpecifier`. -/
theorem claim2_counterexample :
    Specifier.parse ">= " = some ⟨VRel.ge, ""⟩ := by
  decide

/-- C2 (amended): parsing `""` (missing relation) and `"~~1.0"` (unknown
relation symbol) fails with `InvalidSpecifier`, but `">= "` is accepted with
an empty version, because the version token is a possibly-empty run of
characters excluding comma, semicolon, whitespace and closing parenthesis. -/
theorem claim2_grammar_failures :
    Specifier.parse "" = none ∧
    Specifier.parse "~~1.0" = none ∧
    Specifier.parse ">= " = some ⟨VRel.ge, ""⟩ := by
  decide

/-- C3: intersection, union and contains are total functions (they are plain
functions into `SpecifierSet`/`Bool` here, with no error outcome, mirroring
the absence of any raise in the source), and the unsatisfiable combination
`>=3.0 ∩ <<2.0` yields the empty `SpecifierSet` rather than an error, both at
the `Specifier` level and at the `SpecifierSet` level, for any comparator that
orders `2.0` below `3.0`. -/
theorem claim3_no_failure (vc : String → String → Int)
    (h1 : vc "2.0" "3.0" < 0) (h2 : vc "3.0" "2.0" > 0) :
    Specifier.intersection vc ⟨VRel.ge, "3.0"⟩ ⟨VRel.lt, "2.0"⟩ =
      SpecifierSet.ofList [] ∧
    SpecifierSet.intersection vc (SpecifierSet.ofList [⟨VRel.ge, "3.0"⟩])
        (SpecifierSet.ofList [⟨VRel.lt, "2.0"⟩]) =
      SpecifierSet.ofList [] := by
  have hca : Specifier.contains vc ⟨VRel.ge, "3.0"⟩ "2.0" = false := by
    show decide (vc "2.0" "3.0" ≥ 0) = false
    simp
    omega
  have hcb : Specifier.contains vc ⟨VRel.lt, "2.0"⟩ "3.0" = false := by
    show decide (vc "3.0" "2.0" < 0) = false
    simp
    omega
  have hA : Specifier.intersection vc ⟨VRel.ge, "3.0"⟩ ⟨VRel.lt, "2.0"⟩ =
      SpecifierSet.ofList [] := by
    unfold Specifier.intersection
    rw [if_neg (by decide), if_neg (by decide), if_neg (by decide),
      if_neg (by decide)]
    rw [hca, hcb]
    simp
  have hB : Specifier.intersection vc ⟨VRel.lt, "2.0"⟩ ⟨VRel.ge, "3.0"⟩ =
      SpecifierSet.ofList [] := by
    unfold Specifier.intersection
    rw [if_neg (by decide), if_neg (by decide), if_neg (by decide),
      if_neg (by decide)]
    rw [hca, hcb]
    simp
  refine ⟨hA, ?_⟩
  show intersectPool vc [⟨VRel.lt, "2.0"⟩, ⟨VRel.ge, "3.0"⟩] =
    SpecifierSet.ofList []
  simp only [intersectPool, reduceList, mergeInner, hB]
  simp [SpecifierSet.ofList, unionLists]

theorem claim3_witness :
    (version_compare "2.0" "3.0" < 0) ∧
    Specifier.intersection version_compare ⟨VRel.ge, "3.0"⟩ ⟨VRel.lt, "2.0"⟩ =
      SpecifierSet.ofList [] ∧
    SpecifierSet.intersection version_compare
        (SpecifierSet.ofList [⟨VRel.ge, "3.0"⟩])
        (SpecifierSet.ofList [⟨VRel.lt, "2.0"⟩]) =
      SpecifierSet.ofList [] := by
  refine ⟨by decide, ?_, ?_⟩
  · exact (claim3_no_failure version_compare (by decide) (by decide)).1
  · exact (claim3_no_failure version_compare (by decide) (by decide)).2

/-- C4, counterexample: the result of the pooled fixpoint reduction depends on
the iteration order.  For the pool `{<=2.2, >=2.2}` (the structural union of
the two singleton operands), the order `[<=2.2, >=2.2]` yields a result
containing `3.0` while the order `[>=2.2, <=2.2]` yields one that does not,
although both orders enumerate the same pool. -/
theorem claim4_counterexample :
    List.Perm [(⟨VRel.le, "2.2"⟩ : Specifier), ⟨VRel.ge, "2.2"⟩]
      (unionLists (SpecifierSet.ofList [⟨VRel.le, "2.2"⟩]).specs
        (SpecifierSet.ofList [⟨VRel.ge, "2.2"⟩]).specs) ∧
    List.Perm [(⟨VRel.ge, "2.2"⟩ : Specifier), ⟨VRel.le, "2.2"⟩]
      (unionLists (SpecifierSet.ofList [⟨VRel.le, "2.2"⟩]).specs
        (SpecifierSet.ofList [⟨VRel.ge, "2.2"⟩]).specs) ∧
    (intersectPool version_compare
        [⟨VRel.le, "2.2"⟩, ⟨VRel.ge, "2.2"⟩]).contains version_compare "3.0" = true ∧
    (intersectPool version_compare
        [⟨VRel.ge, "2.2"⟩, ⟨VRel.le, "2.2"⟩]).contains version_compare "3.0" = false := by
  decide

/-- C4 (amended): iteration order over the pooled members CAN affect the
mathematical result of `SpecifierSet.intersection`, not merely its display
order: there exist operand sets and two iteration orders of their pooled
union whose results disagree on `contains(v)` for some version `v`.  (For a
fixed order the function is deterministic by construction.) -/
theorem claim4_order_dependent :
    ∃ (a b : SpecifierSet) (l1 l2 : List Specifier) (v : String),
      List.Perm l1 (unionLists a.specs b.specs) ∧
      List.Perm l2 (unionLists a.specs b.specs) ∧
      (intersectPool version_compare l1).contains version_compare v ≠
        (intersectPool version_compare l2).contains version_compare v := by
  refine ⟨SpecifierSet.ofList [⟨VRel.le, "2.2"⟩],
    SpecifierSet.ofList [⟨VRel.ge, "2.2"⟩],
    [⟨VRel.le, "2.2"⟩, ⟨VRel.ge, "2.2"⟩],
    [⟨VRel.ge, "2.2"⟩, ⟨VRel.le, "2.2"⟩], "3.0", ?_, ?_, ?_⟩ <;> decide

/-- C5: for two non-identical specifiers with the same version string and
neither relation `=`, the intersection is the singleton of the strict operand
when exactly one relation is strict, and of `other` when `self` is inclusive
(resp. `self` when `self` is strict) when both share a flavor — the
`rel1[1] == '='` tie-break of the source. -/
theorem claim5_same_version_tiebreak (vc : String → String → Int)
    (s o : Specifier) (hne : s ≠ o) (hv : s.version = o.version)
    (h1 : s.relation ≠ VRel.eq) (h2 : o.relation ≠ VRel.eq) :
    (s.relation.inclusive = true → o.relation.inclusive = false →
      Specifier.intersection vc s o = SpecifierSet.ofList [o]) ∧
    (s.relation.inclusive = false → o.relation.inclusive = true →
      Specifier.intersection vc s o = SpecifierSet.ofList [s]) ∧
    (s.relation.inclusive = o.relation.inclusive →
      Specifier.intersection vc s o =
        SpecifierSet.ofList [if s.relation.inclusive then o else s]) := by
  have hos : ¬ (o = s) := fun h => hne h.symm
  have hbase : Specifier.intersection vc s o =
      SpecifierSet.ofList [if s.relation.inclusive then o else s] := by
    unfold Specifier.intersection
    rw [if_neg hos, if_neg h1, if_neg h2, if_pos hv]
  refine ⟨?_, ?_, ?_⟩
  · intro ha _
    rw [hbase, if_pos ha]
  · intro ha _
    rw [hbase, if_neg (by simp [ha])]
  · intro _
    exact hbase

theorem claim5_witness :
    ((⟨VRel.le, "2.2"⟩ : Specifier) ≠ ⟨VRel.lt, "2.2"⟩) ∧
    Specifier.intersection version_compare ⟨VRel.le, "2.2"⟩ ⟨VRel.lt, "2.2"⟩ =
      SpecifierSet.ofList [⟨VRel.lt, "2.2"⟩] :=
  ⟨by decide,
    (claim5_same_version_tiebreak version_compare ⟨VRel.le, "2.2"⟩
      ⟨VRel.lt, "2.2"⟩ (by decide) rfl (by decide) (by decide)).1 rfl rfl⟩

/-- C6: when `self` has relation `=`, intersection returns `{self}` when
`other.contains(self.version)` holds and the empty set otherwise; symmetric
for `other` with relation `=` (with `{other}` and `self.contains`). -/
theorem claim6_exact_equality_absorbs (vc : String → String → Int)
    (s o : Specifier) (hne : s ≠ o) :
    (s.relation = VRel.eq →
      Specifier.intersection vc s o =
        if o.contains vc s.version then SpecifierSet.ofList [s]
        else SpecifierSet.ofList []) ∧
    (s.relation ≠ VRel.eq → o.relation = VRel.eq →
      Specifier.intersection vc s o =
        if s.contains vc o.version then SpecifierSet.ofList [o]
        else SpecifierSet.ofList []) := by
  have hos : ¬ (o = s) := fun h => hne h.symm
  constructor
  · intro h1
    unfold Specifier.intersection
    rw [if_neg hos, if_pos h1]
  · intro h1 h2
    unfold Specifier.intersection
    rw [if_neg hos, if_neg h1, if_pos h2]

theorem claim6_witness :
    Specifier.intersection version_compare ⟨VRel.ge, "2.2"⟩ ⟨VRel.eq, "2.2.1"⟩ =
      SpecifierSet.ofList [⟨VRel.eq, "2.2.1"⟩] := by
  have h := (claim6_exact_equality_absorbs version_compare ⟨VRel.ge, "2.2"⟩
    ⟨VRel.eq, "2.2.1"⟩ (by decide)).2 (by decide) rfl
  rw [h]
  decide

/-- C7: for overlapping specifiers with different version strings and neither
relation `=`: same direction keeps the more restrictive bound (the higher
version for `>`-style, the lower for `<`-style); opposite directions keep
both operands, a genuine two-member set. -/
theorem claim7_overlapping_ranges (vc : String → String → Int)
    (s o : Specifier) (hv : s.version ≠ o.version)
    (h1 : s.relation ≠ VRel.eq) (h2 : o.relation ≠ VRel.eq)
    (hov : s.contains vc o.version = true ∨ o.contains vc s.version = true) :
    (s.relation.firstChar = o.relation.firstChar →
      (s.relation.firstChar = '>' →
        (vc s.version o.version > 0 →
          Specifier.intersection vc s o = SpecifierSet.ofList [s]) ∧
        (vc s.version o.version < 0 →
          Specifier.intersection vc s o = SpecifierSet.ofList [o])) ∧
      (s.relation.firstChar = '<' →
        (vc s.version o.version > 0 →
          Specifier.intersection vc s o = SpecifierSet.ofList [o]) ∧
        (vc s.version o.version < 0 →
          Specifier.intersection vc s o = SpecifierSet.ofList [s]))) ∧
    (s.relation.firstChar ≠ o.relation.firstChar →
      Specifier.intersection vc s o = SpecifierSet.ofList [s, o] ∧
      (SpecifierSet.ofList [s, o]).specs.length = 2) := by
  have hne : ¬ (o = s) := fun h => hv ((congrArg Specifier.version h).symm)
  have hovB : (s.contains vc o.version || o.contains vc s.version) = true := by
    rcases hov with h | h <;> simp [h]
  have hred : Specifier.intersection vc s o =
      (if s.relation.firstChar = o.relation.firstChar then
        (if s.relation.firstChar = '>' then
          SpecifierSet.ofList [if vc s.version o.version > 0 then s else o]
        else
          SpecifierSet.ofList [if vc s.version o.version > 0 then o else s])
      else SpecifierSet.ofList [s, o]) := by
    unfold Specifier.intersection
    rw [if_neg hne, if_neg h1, if_neg h2, if_neg hv, if_pos hovB]
  refine ⟨?_, ?_⟩
  · intro hdir
    refine ⟨?_, ?_⟩
    · intro hgt
      refine ⟨?_, ?_⟩
      · intro hpos
        rw [hred, if_pos hdir, if_pos hgt, if_pos hpos]
      · intro hneg
        rw [hred, if_pos hdir, if_pos hgt, if_neg (by omega)]
    · intro hlt
      have hgt' : ¬ (s.relation.firstChar = '>') := by
        rw [hlt]
        decide
      refine ⟨?_, ?_⟩
      · intro hpos
        rw [hred, if_pos hdir, if_neg hgt', if_pos hpos]
      · intro hneg
        rw [hred, if_pos hdir, if_neg hgt', if_neg (by omega)]
  · intro hdiff
    refine ⟨?_, ?_⟩
    · rw [hred, if_neg hdiff]
    · exact ofList_pair_length s o (fun h => hv (congrArg Specifier.version h))

theorem claim7_witness :
    ((⟨VRel.ge, "2.2"⟩ : Specifier).contains version_compare "2.3" = true) ∧
    Specifier.intersection version_compare ⟨VRel.ge, "2.2"⟩ ⟨VRel.lt, "2.3"⟩ =
      SpecifierSet.ofList [⟨VRel.ge, "2.2"⟩, ⟨VRel.lt, "2.3"⟩] ∧
    (SpecifierSet.ofList
      [(⟨VRel.ge, "2.2"⟩ : Specifier), ⟨VRel.lt, "2.3"⟩]).specs.length = 2 := by
  refine ⟨by decide, ?_, ?_⟩
  · exact ((claim7_overlapping_ranges version_compare ⟨VRel.ge, "2.2"⟩
      ⟨VRel.lt, "2.3"⟩ (by decide) (by decide) (by decide)
      (Or.inl (by decide))).2 (by decide)).1
  · exact ((claim7_overlapping_ranges version_compare ⟨VRel.ge, "2.2"⟩
      ⟨VRel.lt, "2.3"⟩ (by decide) (by decide) (by decide)
      (Or.inl (by decide))).2 (by decide)).2

/-- C8: `SpecifierSet.contains` is the conjunction of its members'
`contains`, and the empty `SpecifierSet` contains every version. -/
theorem claim8_contains_conjunction (vc : String → String → Int)
    (S : SpecifierSet) (v : String) :
    (S.contains vc v = true ↔
      ∀ sp ∈ S.specs, sp.contains vc v = true) ∧
    (SpecifierSet.ofList []).contains vc v = true := by
  constructor
  · exact List.all_eq_true
  · rfl

/-- C9: re-parsing the canonical string form of a `SpecifierSet` reproduces it
as a set.  The two hypotheses are the reachability invariants every Python
`SpecifierSet` satisfies: the member list is in canonical (sorted,
duplicate-free) form — the embedding of `frozenset` — and every member version
consists of characters the parsing regex can capture. -/
theorem claim9_reparse_stable (S : SpecifierSet)
    (hcanon : canonicalSpecs S.specs)
    (hval : ∀ sp ∈ S.specs, validToken sp.version) :
    SpecifierSet.parse S.str = some S := by
  obtain ⟨l⟩ := S
  cases l with
  | nil => decide
  | cons sp0 l0 =>
    have hcanon' : canonicalSpecs (sp0 :: l0) := hcanon
    have hval' : ∀ sp ∈ sp0 :: l0, validToken sp.version := hval
    show SpecifierSet.parse
      ⟨joinComma ((sp0 :: l0).map Specifier.strChars)⟩ = some ⟨sp0 :: l0⟩
    unfold SpecifierSet.parse
    rw [show (String.mk (joinComma ((sp0 :: l0).map Specifier.strChars))).data
        = joinComma ((sp0 :: l0).map Specifier.strChars) from rfl]
    rw [splitComma_joinComma ((sp0 :: l0).map Specifier.strChars) (by simp)
      (fun t ht => by
        rcases List.mem_map.mp ht with ⟨sp, hsp, rfl⟩
        exact strChars_no_comma sp (hval' sp hsp))]
    rw [map_trimChars_eq_self ((sp0 :: l0).map Specifier.strChars)
      (fun t ht => by
        rcases List.mem_map.mp ht with ⟨sp, hsp, rfl⟩
        exact strChars_no_space sp (hval' sp hsp))]
    rw [filter_nonempty_eq_self ((sp0 :: l0).map Specifier.strChars)
      (fun t ht => by
        rcases List.mem_map.mp ht with ⟨sp, hsp, rfl⟩
        exact strChars_ne_nil sp)]
    rw [parseAll_strChars (sp0 :: l0) hval']
    show some (SpecifierSet.ofList (sp0 :: l0)) = some ⟨sp0 :: l0⟩
    rw [SpecifierSet.ofList_of_canonical (sp0 :: l0) hcanon']

theorem claim9_witness :
    canonicalSpecs
      (SpecifierSet.ofList
        [(⟨VRel.ge, "2.2"⟩ : Specifier), ⟨VRel.lt, "2.3"⟩]).specs ∧
    SpecifierSet.parse
        (SpecifierSet.ofList
          [(⟨VRel.ge, "2.2"⟩ : Specifier), ⟨VRel.lt, "2.3"⟩]).str =
      some (SpecifierSet.ofList
        [(⟨VRel.ge, "2.2"⟩ : Specifier), ⟨VRel.lt, "2.3"⟩]) :=
  ⟨by decide,
    claim9_reparse_stable
      (SpecifierSet.ofList [(⟨VRel.ge, "2.2"⟩ : Specifier), ⟨VRel.lt, "2.3"⟩])
      (by decide) (by decide)⟩

/-- C10: equality against a raw string parses the string on both types, but
only `Specifier.__eq__` guards the parse: a malformed string makes a
`Specifier` comparison `False` (never an exception), while the same
comparison on a `SpecifierSet` propagates `InvalidSpecifier` (modelled by
`none`) instead of returning a boolean. -/
theorem claim10_eq_string_coercion :
    (∀ (sp : Specifier) (t : String),
      Specifier.eqStr sp t = true ↔
        ∃ o, Specifier.parse t = some o ∧ sp = o) ∧
    (∀ (sp : Specifier) (t : String),
      Specifier.parse t = none → Specifier.eqStr sp t = false) ∧
    (∀ (S : SpecifierSet) (t : String),
      SpecifierSet.parse t = none → S.eqStr t = none) ∧
    Specifier.eqStr ⟨VRel.ge, "1.0"⟩ "~~1.0" = false ∧
    SpecifierSet.eqStr ⟨[]⟩ "~~1.0" = none := by
  refine ⟨?_, ?_, ?_, by decide, by decide⟩
  · intro sp t
    unfold Specifier.eqStr
    cases h : Specifier.parse t with
    | none => simp
    | some o => simp
  · intro sp t h
    unfold Specifier.eqStr
    rw [h]
  · intro S t h
    unfold SpecifierSet.eqStr
    rw [h]

theorem claim10_witness :
    SpecifierSet.parse ";" = none ∧
    SpecifierSet.eqStr ⟨[]⟩ ";" = none :=
  ⟨by decide, claim10_eq_string_coercion.2.2.1 ⟨[]⟩ ";" (by decide)⟩
